import Mathlib

/-!
Verification of the CoAP payload translator of src/src/mynewt/macros.rs.

The source is a Rust token-tree muncher (the coap!/parse! macro family) that
compiles a JSON-like literal into an ordered sequence of calls against a
streaming encoder, for three targets: @none, @json and @cbor.  We embed the
muncher shallowly: each macro rule of parse! becomes one branch of a Lean
function over a token representation of the literal, tried in the source's
rule order, and each leaf encoder macro (coap_root!, coap_array!,
coap_item_str!, coap_item!, coap_item_int!, coap_set_int_val!,
coap_item_int_val!, json_rep_* and oc_rep_*) becomes a function producing
abstract encoder operations.

Modelling conventions, all justified by the source:
* A grammar failure in the source is a macro-expansion failure (the error
  rules expand parse!() with no arguments, or unexpected_token!(tok) which
  takes no arguments).  We model translation as returning the operations
  emitted before the point of failure together with an optional error, which
  is the spec's runtime reading of the same process.
* Rustc bounds macro recursion by its recursion_limit; the fuel parameter
  mirrors that bound.  Err.recursionLimit is returned when it is exhausted.
* Host expressions that can appear as a key or value token are restricted to
  the shapes the claims exercise: string literals, integer literals,
  identifiers, and a bound sensor-sample value exposing a string key and an
  integer value (the SensorValue of coap_item_int_val!/coap_set_int_val!).
  A macro $value:expr fragment matches exactly one such token (or a
  parenthesized one); null/true/false/[..]/{..} tokens are intercepted by
  their dedicated earlier rules, exactly as in the source's rule order.
* When an expr fragment succeeds but the rest of a rule's pattern does not
  match, the macro engine softly tries the next rule; when the expr fragment
  cannot even start (the stream head is a colon or comma), expansion fails
  hard.  The latter is modelled by Err.hostParse, as is an emission macro
  (coap_item_str!, coap_item_int_val!) whose argument pattern cannot match
  the accumulated key tokens.
-/

namespace CoapMacros

/-- Host-level expressions appearing as single tokens in the literal:
string literals, integer literals, identifiers, and a bound sensor-sample
value exposing a string field key and an integer field value. -/
inductive Exp where
  | str : String → Exp
  | int : Int → Exp
  | ident : String → Exp
  | sample : String → Int → Exp

/-- Tokens of the embedded literal, mirroring the token trees the muncher
walks: colon, comma, the null/true/false keywords, a bracketed array tree,
a braced object tree, a fully parenthesized expression, and a plain
expression token. -/
inductive Tok where
  | colon : Tok
  | comma : Tok
  | nullTok : Tok
  | trueTok : Tok
  | falseTok : Tok
  | arr : List Tok → Tok
  | obj : List Tok → Tok
  | paren : Exp → Tok
  | exp : Exp → Tok

/-- The three encoding targets selected by coap!(@none ...), coap!(@json ...)
and coap!(@cbor ...). -/
inductive Enc where
  | none : Enc
  | json : Enc
  | cbor : Enc

/-- Translation failures.  unexpectedEnd models the error rules that expand
parse!() with no arguments (rustc: unexpected end of macro invocation);
unexpectedToken models unexpected_token!(tok) and the no-rule-matches
failures; hostParse models a hard failure of a fragment parse or of an
emission macro's argument pattern; recursionLimit models rustc's
recursion_limit. -/
inductive Err where
  | unexpectedEnd : Err
  | unexpectedToken : Tok → Err
  | hostParse : Err
  | recursionLimit : Err

/-- Abstract encoder operations, the instruction set the translator emits.
Each constructor corresponds to one leaf encoder macro pair of the source:
startRootObject/endRootObject to oc_rep_start_root_object! and
json_rep_start_root_object (and their ends), setArray/closeArray to
oc_rep_set_array!/json_rep_set_array! (and close), startItem/endItem to
oc_rep_object_array_start_item!/json_rep_object_array_start_item! (and end),
setText to oc_rep_set_text_string!/json_rep_set_text_string!, and setInt to
oc_rep_set_int!/json_rep_set_int!. -/
inductive Op where
  | startRootObject : Op
  | endRootObject : Op
  | setArray : String → String → Op
  | closeArray : String → String → Op
  | startItem : String → Op
  | endItem : String → Op
  | setText : String → String → Exp → Op
  | setInt : String → String → Int → Op

/-- Sequential composition of two emission results: if the first fails, its
operations stand and the second never expands; otherwise the operations
concatenate and the second's outcome decides. -/
def seqOps (a b : List Op × Option Err) : List Op × Option Err :=
  match a.2 with
  | some e => (a.1, some e)
  | Option.none => (a.1 ++ b.1, b.2)

/-- Bracketing an inner emission between fixed opening and closing
operations: the opens always precede the body; the closes are only reached
when the body expands without failure. -/
def wrapOps (pre post : List Op) (r : List Op × Option Err) : List Op × Option Err :=
  match r.2 with
  | some e => (pre ++ r.1, some e)
  | Option.none => (pre ++ r.1 ++ post, Option.none)

/-- coap_item!: open an array item under the named array, emit the children,
close the item. -/
def coap_item (obj : String) (children : List Op) : List Op :=
  Op.startItem obj :: children ++ [Op.endItem obj]

/-- coap_item_str!: an item whose "key" field is the entry key and whose
"value" field is the entry value, both written through the text-string
setter.  The value expression is evaluated while building the "value" call,
so operations produced by a nested literal value (vops) run between the two
setText calls. -/
def coap_item_str (obj : String) (k : Exp) (vops : List Op) (v : Exp) : List Op :=
  coap_item obj (Op.setText obj "key" k :: vops ++ [Op.setText obj "value" v])

/-- coap_item_str! when the value expression itself may fail to expand: on
failure the item open and the "key" write precede the failing value
expansion and the item is never closed. -/
def item_str_emit (obj : String) (k : Exp) (vops : List Op) (v : Exp)
    (verr : Option Err) : List Op × Option Err :=
  match verr with
  | some e => (Op.startItem obj :: Op.setText obj "key" k :: vops, some e)
  | Option.none => (coap_item_str obj k vops v, Option.none)

/-- coap_item_int!: an item with a text-string "key" field and an integer
"value" field. -/
def coap_item_int (obj : String) (k : String) (n : Int) : List Op :=
  coap_item obj [Op.setText obj "key" (Exp.str k), Op.setInt obj "value" n]

/-- coap_root!: bracket the body between the root-object open and close. -/
def coap_root (body : List Op) : List Op :=
  Op.startRootObject :: body ++ [Op.endRootObject]

/-- coap_array!: bracket the body between opening and closing the named
array under the named object. -/
def coap_array_wrap (obj key : String) (body : List Op) : List Op :=
  Op.setArray obj key :: body ++ [Op.closeArray obj key]

/-- The accumulated key tokens, used as the $key:expr argument of
coap_item_str!.  The fragment matches a single expression token (possibly
parenthesized); any other accumulation fails the emission macro's pattern. -/
def keyExp : List Tok → Option Exp
  | [Tok.exp e] => some e
  | [Tok.paren e] => some e
  | _ => Option.none

/-- The accumulated key tokens of a key-only entry, used as the $val0:expr
argument of coap_item_int_val!/coap_set_int_val!, whose expansions access
the fields val0.key and (per the TODO comments) val0.int_val: the token must
be a single bound sample value. -/
def keySample : List Tok → Option (String × Int)
  | [Tok.exp (Exp.sample k n)] => some (k, n)
  | [Tok.paren (Exp.sample k n)] => some (k, n)
  | _ => Option.none

/-- Accumulator state of the parse! @array muncher: nil is the empty
accumulator [], trailing is a non-empty accumulator whose last element
carries a trailing comma (ready for a next element), plain is a non-empty
accumulator without a trailing comma (only a separator comma or the end may
follow). -/
inductive ArrAcc where
  | nil : ArrAcc
  | trailing : ArrAcc
  | plain : ArrAcc

/-- Forget the result expression of a value translation, keeping its
operations and outcome. -/
def dropE (r : List Op × Exp × Option Err) : List Op × Option Err :=
  (r.1, r.2.2)

mutual

/-- The parse! @object muncher, state (key accumulator)(remaining stream).
Branches appear in the source's rule order; the two stream copies the source
keeps for error display are semantically one and are not duplicated here. -/
def parse_object (fuel : Nat) (enc : Enc) (object : String)
    (key : List Tok) (stream : List Tok) : List Op × Option Err :=
  match fuel with
  | 0 => ([], some Err.recursionLimit)
  | fuel + 1 =>
    match key, stream with
    -- Done: empty key, empty stream.
    | [], [] => ([], Option.none)
    -- Missing colon and value for last entry: parse!() with no arguments.
    | _ :: _, [] => ([], some Err.unexpectedEnd)
    -- A colon after a non-empty key: dispatch on the value grammar.
    | _ :: _, Tok.colon :: rest =>
      match rest with
      -- Missing value for last entry: parse!() with no arguments.
      | [] => ([], some Err.unexpectedEnd)
      -- Next value is null / true / false: forwarded as a string value.
      | Tok.nullTok :: r =>
        parse_entry fuel enc object key [] (Exp.str "null") Option.none r
      | Tok.trueTok :: r =>
        parse_entry fuel enc object key [] (Exp.str "true") Option.none r
      | Tok.falseTok :: r =>
        parse_entry fuel enc object key [] (Exp.str "false") Option.none r
      -- Next value is an array.
      | Tok.arr a :: r =>
        match parse_value fuel enc (Tok.arr a) with
        | (vops, v, verr) => parse_entry fuel enc object key vops v verr r
      -- Next value is a map.
      | Tok.obj m :: r =>
        match parse_value fuel enc (Tok.obj m) with
        | (vops, v, verr) => parse_entry fuel enc object key vops v verr r
      -- Next value is an expression followed by a comma (the comma is kept).
      | Tok.exp e :: Tok.comma :: r =>
        parse_entry fuel enc object key [] e Option.none (Tok.comma :: r)
      | Tok.paren e :: Tok.comma :: r =>
        parse_entry fuel enc object key [] e Option.none (Tok.comma :: r)
      -- Last value is an expression with no trailing comma.
      | [Tok.exp e] => parse_entry fuel enc object key [] e Option.none []
      | [Tok.paren e] => parse_entry fuel enc object key [] e Option.none []
      -- The expr fragment cannot start on a comma or colon: hard failure.
      | Tok.comma :: _ => ([], some Err.hostParse)
      | Tok.colon :: _ => ([], some Err.hostParse)
      -- An expression value followed by a token that is neither a comma nor
      -- the end: the expr rules fail softly and the generic munch rule
      -- swallows the colon into the key.
      | _ => parse_object fuel enc object (key ++ [Tok.colon]) rest
    -- Misplaced colon with an empty key: unexpected_token!(colon).
    | [], Tok.colon :: _ => ([], some (Err.unexpectedToken Tok.colon))
    -- A key followed by a comma: the key-only sensor-sample entry.
    | k, Tok.comma :: rest =>
      match enc with
      -- @none: the d! rule stringifies and emits nothing.
      | Enc.none => parse_object fuel enc object [] rest
      -- @json: coap_item_int_val! with the hardcoded 1234 placeholder
      -- (the source's TODO in place of val0.int_val).
      | Enc.json =>
        match keySample k with
        | some (sk, _) =>
          seqOps (coap_item_int object sk 1234, Option.none)
            (parse_object fuel enc object [] rest)
        | Option.none => ([], some Err.hostParse)
      -- @cbor: coap_set_int_val! with the hardcoded 1234 placeholder.
      | Enc.cbor =>
        match keySample k with
        | some (sk, _) =>
          seqOps ([Op.setInt object sk 1234], Option.none)
            (parse_object fuel enc object [] rest)
        | Option.none => ([], some Err.hostParse)
    -- Fully parenthesized key followed by a colon.
    | [], Tok.paren e :: Tok.colon :: rest =>
      parse_object fuel enc object [Tok.exp e] (Tok.colon :: rest)
    -- Generic munch: move one token into the key accumulator.
    | k, t :: rest => parse_object fuel enc object (k ++ [t]) rest

/-- The parse! @object rules for the state with a completed [key] and
(value): vops/v/verr are the operations, result and possible failure of the
value expression, which the source leaves unexpanded until an emission rule
substitutes it. -/
def parse_entry (fuel : Nat) (enc : Enc) (object : String) (key : List Tok)
    (vops : List Op) (v : Exp) (verr : Option Err) (rest : List Tok) :
    List Op × Option Err :=
  match fuel with
  | 0 => ([], some Err.recursionLimit)
  | fuel + 1 =>
    match rest with
    | Tok.comma :: r =>
      match enc with
      -- @none: d! stringifies key and value; nothing is emitted and a
      -- failing nested value is never expanded.
      | Enc.none => parse_object fuel enc object [] r
      -- @json/@cbor: coap_item_str! with the key tokens as $key:expr.
      | _ =>
        match keyExp key with
        | Option.none => ([], some Err.hostParse)
        | some k =>
          seqOps (item_str_emit object k vops v verr)
            (parse_object fuel enc object [] r)
    -- Current entry followed by an unexpected token: unexpected_token!.
    | t :: _ => ([], some (Err.unexpectedToken t))
    -- Last entry without trailing comma: the TODO d! rule, no emission,
    -- the value expression is stringified and never expanded.
    | [] => ([], Option.none)

/-- The parse! @array muncher.  The element expressions are accumulated into
a vec! and evaluated in order, so element operations concatenate; the
accumulator's comma shape decides which rules can fire, as in the source. -/
def parse_array (fuel : Nat) (enc : Enc) (acc : ArrAcc) (ts : List Tok) :
    List Op × Option Err :=
  match fuel with
  | 0 => ([], some Err.recursionLimit)
  | fuel + 1 =>
    match acc, ts with
    -- Done (with or without trailing comma): the vec! emits no operations.
    | _, [] => ([], Option.none)
    -- Comma after the most recent element.
    | ArrAcc.plain, Tok.comma :: rest => parse_array fuel enc ArrAcc.trailing rest
    | ArrAcc.nil, Tok.comma :: rest => parse_array fuel enc ArrAcc.nil rest
    -- Trailing-comma accumulator followed by another comma: the next-element
    -- expr fragment starts on the comma and fails hard.
    | ArrAcc.trailing, Tok.comma :: _ => ([], some Err.hostParse)
    -- Plain accumulator followed by anything but a comma:
    -- unexpected_token!.
    | ArrAcc.plain, t :: _ => ([], some (Err.unexpectedToken t))
    -- Next element is null / true / false (no operations).
    | _, Tok.nullTok :: rest => parse_array fuel enc ArrAcc.plain rest
    | _, Tok.trueTok :: rest => parse_array fuel enc ArrAcc.plain rest
    | _, Tok.falseTok :: rest => parse_array fuel enc ArrAcc.plain rest
    -- Next element is an array.
    | _, Tok.arr a :: rest =>
      seqOps (dropE (parse_value fuel enc (Tok.arr a)))
        (parse_array fuel enc ArrAcc.plain rest)
    -- Next element is a map.
    | _, Tok.obj m :: rest =>
      seqOps (dropE (parse_value fuel enc (Tok.obj m)))
        (parse_array fuel enc ArrAcc.plain rest)
    -- Next element is an expression followed by a comma.
    | _, Tok.exp _ :: Tok.comma :: rest => parse_array fuel enc ArrAcc.trailing rest
    | _, Tok.paren _ :: Tok.comma :: rest => parse_array fuel enc ArrAcc.trailing rest
    -- Last element is an expression with no trailing comma.
    | _, [Tok.exp _] => ([], Option.none)
    | _, [Tok.paren _] => ([], Option.none)
    -- Expression element followed by anything else: no rule accepts it.
    | _, Tok.exp e :: _ => ([], some (Err.unexpectedToken (Tok.exp e)))
    | _, Tok.paren e :: _ => ([], some (Err.unexpectedToken (Tok.paren e)))
    -- A colon cannot start an element expression: hard failure.
    | _, Tok.colon :: _ => ([], some Err.hostParse)

/-- The value-level rules of parse!: parse!(@enc token).  Scalars return the
corresponding string, empty containers return their fixed placeholder
strings with no operations, a non-empty array runs the @array muncher, a
non-empty map runs the root rules, and any other expression returns itself
(the final fallthrough rule). -/
def parse_value (fuel : Nat) (enc : Enc) (t : Tok) : List Op × Exp × Option Err :=
  match fuel with
  | 0 => ([], Exp.str "", some Err.recursionLimit)
  | fuel + 1 =>
    match t with
    | Tok.nullTok => ([], Exp.str "null", Option.none)
    | Tok.trueTok => ([], Exp.str "true", Option.none)
    | Tok.falseTok => ([], Exp.str "false", Option.none)
    | Tok.arr [] => ([], Exp.str "[ TODO ]", Option.none)
    | Tok.arr (t0 :: ts) =>
      match parse_array fuel enc ArrAcc.nil (t0 :: ts) with
      | (ops, err) => (ops, Exp.str "[ TODO ]", err)
    | Tok.obj [] => ([], Exp.str "\x7b TODO \x7d", Option.none)
    | Tok.obj (t0 :: ts) => parse_root fuel enc (t0 :: ts)
    | Tok.exp e => ([], e, Option.none)
    | Tok.paren e => ([], e, Option.none)
    | Tok.colon => ([], Exp.str "", some Err.hostParse)
    | Tok.comma => ([], Exp.str "", some Err.hostParse)

/-- The top-level root rules of parse! for a non-empty braced literal.
@none names the root and munches with no encoder calls and returns the
string root; @json wraps the fields in coap_root! around coap_array!(root,
values, ...) and returns the identifier root (which the source never binds
in this arm); @cbor wraps the fields in coap_root! alone and returns the
string root.  On an inner failure the operations emitted before it are the
opens that precede the munch. -/
def parse_root (fuel : Nat) (enc : Enc) (ts : List Tok) : List Op × Exp × Option Err :=
  match fuel with
  | 0 => ([], Exp.str "", some Err.recursionLimit)
  | fuel + 1 =>
    match enc with
    | Enc.none =>
      match parse_object fuel Enc.none "root" [] ts with
      | (ops, err) => (ops, Exp.str "root", err)
    | Enc.json =>
      match wrapOps [Op.startRootObject, Op.setArray "root" "values"]
          [Op.closeArray "root" "values", Op.endRootObject]
          (parse_object fuel Enc.json "values" [] ts) with
      | (ops, err) => (ops, Exp.ident "root", err)
    | Enc.cbor =>
      match wrapOps [Op.startRootObject] [Op.endRootObject]
          (parse_object fuel Enc.cbor "root" [] ts) with
      | (ops, err) => (ops, Exp.str "root", err)

end

/-- coap!(@enc { ts }): the toplevel entry point.  A braced literal
dispatches through parse!'s map rules: the empty literal hits the
placeholder rule, a non-empty one hits the root rules. -/
def coap (fuel : Nat) (enc : Enc) (ts : List Tok) : List Op × Option Err :=
  match parse_value fuel enc (Tok.obj ts) with
  | (ops, _, err) => (ops, err)

/-! ## The concrete CBOR backend layer

The oc_rep_* macros lower each abstract operation to calls of the tinycbor
encoder API (cbor_encoder_create_map, cbor_encoder_create_array,
cbor_encoder_close_container, cbor_encode_text_string, cbor_encode_int).
The Boolean argument of the container creations records whether the
CborIndefiniteLength length marker was passed. -/

/-- Calls of the tinycbor encoder API as issued by the oc_rep_* macros. -/
inductive CborCall where
  | createMap : String → String → Bool → CborCall
  | createArray : String → String → Bool → CborCall
  | closeContainer : String → String → CborCall
  | encodeText : String → Exp → CborCall
  | encodeInt : String → Int → CborCall

/-- Lowering of one abstract operation to tinycbor calls, following the
bodies of the oc_rep_* macros: the root object is an indefinite-length map
created on the global g_encoder/root_map pair; set_array writes the key
text then creates an indefinite-length array named key_array under
object_map; start_item creates an indefinite-length map key_map;
the corresponding closes call cbor_encoder_close_container on the pairs the
source names; the scalar setters write the key text then the value. -/
def oc_rep : Op → List CborCall
  | Op.startRootObject => [CborCall.createMap "g_encoder" "root_map" true]
  | Op.endRootObject => [CborCall.closeContainer "g_encoder" "root_map"]
  | Op.setArray o k =>
    [CborCall.encodeText (o ++ "_map") (Exp.str k),
     CborCall.createArray (o ++ "_map") (k ++ "_array") true]
  | Op.closeArray o _k => [CborCall.closeContainer o (o ++ "_map")]
  | Op.startItem k => [CborCall.createMap k (k ++ "_map") true]
  | Op.endItem k => [CborCall.closeContainer (k ++ "_array") (k ++ "_map")]
  | Op.setText o k v =>
    [CborCall.encodeText (o ++ "_map") (Exp.str k),
     CborCall.encodeText (o ++ "_map") v]
  | Op.setInt o k n =>
    [CborCall.encodeText (o ++ "_map") (Exp.str k),
     CborCall.encodeInt (o ++ "_map") n]

/-- Lowering of an operation sequence to the flat tinycbor call sequence. -/
def cborLower : List Op → List CborCall
  | [] => []
  | o :: ops => oc_rep o ++ cborLower ops

/-- Does a tinycbor call create the root map on the global encoder (an
indefinite-length map header at the document root)? -/
def isRootMapCreate : CborCall → Bool
  | CborCall.createMap p c _ => p == "g_encoder" && c == "root_map"
  | _ => false

/-- Does a tinycbor call close the root map on the global encoder? -/
def isRootMapClose : CborCall → Bool
  | CborCall.closeContainer p c => p == "g_encoder" && c == "root_map"
  | _ => false

/-! ## The encoder frame stack

Every Start operation pushes a frame, every End operation must pop the
matching frame; runStack executes an operation sequence against a stack and
fails on a mismatched close. -/

/-- Stack frames pushed by the Start operations. -/
inductive Frame where
  | rootF : Frame
  | arrayF : String → String → Frame
  | itemF : String → Frame

/-- One operation against the frame stack: opens push, closes pop the
matching frame (failing otherwise), scalar writes leave the stack alone. -/
def stepOp : Op → List Frame → Option (List Frame)
  | Op.startRootObject, s => some (Frame.rootF :: s)
  | Op.setArray o k, s => some (Frame.arrayF o k :: s)
  | Op.startItem k, s => some (Frame.itemF k :: s)
  | Op.endRootObject, Frame.rootF :: s => some s
  | Op.closeArray o k, Frame.arrayF o' k' :: s =>
    if o = o' ∧ k = k' then some s else Option.none
  | Op.endItem k, Frame.itemF k' :: s =>
    if k = k' then some s else Option.none
  | Op.setText _ _ _, s => some s
  | Op.setInt _ _ _, s => some s
  | _, _ => Option.none

/-- Run a whole operation sequence against a frame stack. -/
def runStack : List Op → List Frame → Option (List Frame)
  | [], s => some s
  | o :: ops, s =>
    match stepOp o s with
    | some s' => runStack ops s'
    | Option.none => Option.none

/-- A sequence is neutral when it runs on any stack and returns it
unchanged: its opens and closes pair up in strict LIFO order. -/
def Neutral (ops : List Op) : Prop := ∀ s, runStack ops s = some s

/-- The kinds of open/close pairs. -/
inductive FKind where
  | rootK : FKind
  | arrayK : FKind
  | itemK : FKind

/-- Frame classifier for a kind. -/
def frameIs : FKind → Frame → Bool
  | FKind.rootK, Frame.rootF => true
  | FKind.arrayK, Frame.arrayF _ _ => true
  | FKind.itemK, Frame.itemF _ => true
  | _, _ => false

/-- Opening operations of a kind. -/
def opensK : FKind → Op → Bool
  | FKind.rootK, Op.startRootObject => true
  | FKind.arrayK, Op.setArray _ _ => true
  | FKind.itemK, Op.startItem _ => true
  | _, _ => false

/-- Closing operations of a kind. -/
def closesK : FKind → Op → Bool
  | FKind.rootK, Op.endRootObject => true
  | FKind.arrayK, Op.closeArray _ _ => true
  | FKind.itemK, Op.endItem _ => true
  | _, _ => false

/-- Is the operation one of the array open/close pair emitted only by
coap_array! (i.e. only by the @json root wrapping)? -/
def noArrWrap : Op → Bool
  | Op.setArray _ _ => false
  | Op.closeArray _ _ => false
  | _ => true

/-- Field-level operations on the cbor root object: the item brackets and
scalar writes that the @cbor muncher emits directly under the root when no
nested non-empty object value occurs. -/
def cborFieldOp : Op → Bool
  | Op.startItem o => o == "root"
  | Op.endItem o => o == "root"
  | Op.setText o _ _ => o == "root"
  | Op.setInt o _ _ => o == "root"
  | _ => false

mutual

/-- A token with no non-empty object literal anywhere inside it. -/
def flatTok : Tok → Bool
  | Tok.obj ts => ts.isEmpty
  | Tok.arr ts => flatToks ts
  | _ => true

/-- A token list with no non-empty object literal anywhere inside it. -/
def flatToks : List Tok → Bool
  | [] => true
  | t :: ts => flatTok t && flatToks ts

end

/-- Does the operation sequence write any field (a text or integer
setter)? -/
def mentionsField (ops : List Op) : Bool :=
  ops.any fun o =>
    match o with
    | Op.setText _ _ _ => true
    | Op.setInt _ _ _ => true
    | _ => false


/-! ## Infrastructure lemmas -/

/-- The @none rules of parse! never invoke an encoder macro: every branch is
a d! stringification, so the @none translation of any literal emits no
operations at all. -/
theorem none_silent : ∀ fuel : Nat,
    (∀ object key stream, (parse_object fuel Enc.none object key stream).1 = [])
    ∧ (∀ object key vops v verr rest,
        (parse_entry fuel Enc.none object key vops v verr rest).1 = [])
    ∧ (∀ acc ts, (parse_array fuel Enc.none acc ts).1 = [])
    ∧ (∀ t, (parse_value fuel Enc.none t).1 = [])
    ∧ (∀ ts, (parse_root fuel Enc.none ts).1 = []) := by
  intro fuel
  induction fuel with
  | zero => refine ⟨?_, ?_, ?_, ?_, ?_⟩ <;> intros <;> rfl
  | succ fuel ih =>
    obtain ⟨ihO, ihE, ihA, ihV, ihR⟩ := ih
    have hseq : ∀ a b : List Op × Option Err, a.1 = [] → b.1 = [] →
        (seqOps a b).1 = [] := by
      intro a b ha hb
      unfold seqOps
      split <;> simp [ha, hb]
    refine ⟨?_, ?_, ?_, ?_, ?_⟩
    · intro object key stream
      simp only [parse_object]
      split <;> try rfl
      all_goals try (apply ihO)
      all_goals (split <;> first | rfl | apply ihO | apply ihE)
    · intro object key vops v verr rest
      simp only [parse_entry]
      split <;> try rfl
      apply ihO
    · intro acc ts
      simp only [parse_array]
      split <;> try rfl
      all_goals try (apply ihA)
      all_goals exact hseq _ _ (by simp [dropE, ihV]) (ihA _ _)
    · intro t
      simp only [parse_value]
      split <;> try rfl
      · simp [ihA]
      · apply ihR
    · intro ts
      simp only [parse_root]
      simp [ihO]

theorem runStack_append (a b : List Op) (s : List Frame) :
    runStack (a ++ b) s =
      match runStack a s with
      | some s' => runStack b s'
      | Option.none => Option.none := by
  induction a generalizing s with
  | nil => simp [runStack]
  | cons o a iha =>
    simp only [List.cons_append, runStack]
    cases stepOp o s <;> simp [iha]

theorem neutral_nil : Neutral [] := fun _ => rfl

theorem neutral_append {a b : List Op} (ha : Neutral a) (hb : Neutral b) :
    Neutral (a ++ b) := by
  intro s
  rw [runStack_append, ha s]
  exact hb s

theorem neutral_single_setText (o k : String) (v : Exp) :
    Neutral [Op.setText o k v] := fun _ => rfl

theorem neutral_single_setInt (o k : String) (n : Int) :
    Neutral [Op.setInt o k n] := fun _ => rfl

theorem neutral_item {mid : List Op} (obj : String) (h : Neutral mid) :
    Neutral (coap_item obj mid) := by
  intro s
  have e1 : coap_item obj mid
      = [Op.startItem obj] ++ (mid ++ [Op.endItem obj]) := by simp [coap_item]
  rw [e1, runStack_append]
  have e2 : runStack [Op.startItem obj] s = some (Frame.itemF obj :: s) := rfl
  rw [e2]
  show runStack (mid ++ [Op.endItem obj]) (Frame.itemF obj :: s) = some s
  rw [runStack_append, h (Frame.itemF obj :: s)]
  show runStack [Op.endItem obj] (Frame.itemF obj :: s) = some s
  simp [runStack, stepOp]

theorem neutral_root_wrap {body : List Op} (h : Neutral body) :
    Neutral (coap_root body) := by
  intro s
  have e1 : coap_root body
      = [Op.startRootObject] ++ (body ++ [Op.endRootObject]) := by simp [coap_root]
  rw [e1, runStack_append]
  have e2 : runStack [Op.startRootObject] s = some (Frame.rootF :: s) := rfl
  rw [e2]
  show runStack (body ++ [Op.endRootObject]) (Frame.rootF :: s) = some s
  rw [runStack_append, h (Frame.rootF :: s)]
  show runStack [Op.endRootObject] (Frame.rootF :: s) = some s
  simp [runStack, stepOp]

theorem neutral_array_wrap {body : List Op} (o k : String) (h : Neutral body) :
    Neutral (coap_array_wrap o k body) := by
  intro s
  have e1 : coap_array_wrap o k body
      = [Op.setArray o k] ++ (body ++ [Op.closeArray o k]) := by
    simp [coap_array_wrap]
  rw [e1, runStack_append]
  have e2 : runStack [Op.setArray o k] s = some (Frame.arrayF o k :: s) := rfl
  rw [e2]
  show runStack (body ++ [Op.closeArray o k]) (Frame.arrayF o k :: s) = some s
  rw [runStack_append, h (Frame.arrayF o k :: s)]
  show runStack [Op.closeArray o k] (Frame.arrayF o k :: s) = some s
  simp [runStack, stepOp]

theorem neutral_item_str {vops : List Op} (obj : String) (k v : Exp)
    (h : Neutral vops) : Neutral (coap_item_str obj k vops v) := by
  apply neutral_item
  have h1 : Op.setText obj "key" k :: vops ++ [Op.setText obj "value" v]
      = [Op.setText obj "key" k] ++ vops ++ [Op.setText obj "value" v] := by simp
  rw [h1]
  exact neutral_append (neutral_append (neutral_single_setText _ _ _) h)
    (neutral_single_setText _ _ _)

theorem neutral_item_int (obj k : String) (n : Int) :
    Neutral (coap_item_int obj k n) := by
  apply neutral_item
  intro s
  rfl

theorem seqOps_eq_ok {a b : List Op × Option Err} {ops : List Op}
    (h : seqOps a b = (ops, Option.none)) :
    a.2 = Option.none ∧ b.2 = Option.none ∧ ops = a.1 ++ b.1 := by
  unfold seqOps at h
  split at h
  · exact absurd (congrArg Prod.snd h) (by simp)
  · exact ⟨by assumption, (congrArg Prod.snd h).symm ▸ rfl,
      (congrArg Prod.fst h).symm⟩

theorem wrapOps_snd_ok {pre post : List Op} {r : List Op × Option Err}
    (h : (wrapOps pre post r).2 = Option.none) :
    r.2 = Option.none ∧ (wrapOps pre post r).1 = pre ++ r.1 ++ post := by
  unfold wrapOps at h ⊢
  split at h
  · simp at h
  · exact ⟨by assumption, rfl⟩

theorem item_str_emit_snd (obj : String) (k : Exp) (vops : List Op) (v : Exp)
    (verr : Option Err) : (item_str_emit obj k vops v verr).2 = verr := by
  cases verr <;> rfl

theorem item_str_emit_ok (obj : String) (k : Exp) (vops : List Op) (v : Exp) :
    item_str_emit obj k vops v Option.none = (coap_item_str obj k vops v, Option.none) := rfl

theorem balance_master : ∀ fuel : Nat,
    (∀ enc object key stream ops,
      parse_object fuel enc object key stream = (ops, Option.none) → Neutral ops)
    ∧ (∀ enc object key vops v verr rest ops,
        (verr = Option.none → Neutral vops) →
        parse_entry fuel enc object key vops v verr rest = (ops, Option.none) →
        Neutral ops)
    ∧ (∀ enc acc ts ops,
        parse_array fuel enc acc ts = (ops, Option.none) → Neutral ops)
    ∧ (∀ enc t ops v,
        parse_value fuel enc t = (ops, v, Option.none) → Neutral ops)
    ∧ (∀ enc ts ops v,
        parse_root fuel enc ts = (ops, v, Option.none) → Neutral ops) := by
  intro fuel
  induction fuel with
  | zero =>
    refine ⟨?_, ?_, ?_, ?_, ?_⟩
    · intro enc object key stream ops h
      simp [parse_object] at h
    · intro enc object key vops v verr rest ops hv h
      simp [parse_entry] at h
    · intro enc acc ts ops h
      simp [parse_array] at h
    · intro enc t ops v h
      simp [parse_value] at h
    · intro enc ts ops v h
      simp [parse_root] at h
  | succ fuel ih =>
    obtain ⟨ihO, ihE, ihA, ihV, ihR⟩ := ih
    -- a convenient form of ihV for value hypotheses
    have ihV' : ∀ enc t, (parse_value fuel enc t).2.2 = Option.none →
        Neutral (parse_value fuel enc t).1 := by
      intro enc t h
      exact ihV enc t _ _ (by rw [← h])
    refine ⟨?_, ?_, ?_, ?_, ?_⟩
    · intro enc object key stream ops h
      simp only [parse_object] at h
      split at h
      -- done
      · cases h; exact neutral_nil
      -- dangling key
      · exact absurd (congrArg Prod.snd h) (by simp)
      -- value dispatch
      · split at h
        · exact absurd (congrArg Prod.snd h) (by simp)
        · exact ihE _ _ _ _ _ _ _ _ (fun _ => neutral_nil) h
        · exact ihE _ _ _ _ _ _ _ _ (fun _ => neutral_nil) h
        · exact ihE _ _ _ _ _ _ _ _ (fun _ => neutral_nil) h
        · exact ihE _ _ _ _ _ _ _ _ (fun hv => ihV' _ _ hv) h
        · exact ihE _ _ _ _ _ _ _ _ (fun hv => ihV' _ _ hv) h
        · exact ihE _ _ _ _ _ _ _ _ (fun _ => neutral_nil) h
        · exact ihE _ _ _ _ _ _ _ _ (fun _ => neutral_nil) h
        · exact ihE _ _ _ _ _ _ _ _ (fun _ => neutral_nil) h
        · exact ihE _ _ _ _ _ _ _ _ (fun _ => neutral_nil) h
        · exact absurd (congrArg Prod.snd h) (by simp)
        · exact absurd (congrArg Prod.snd h) (by simp)
        · exact ihO _ _ _ _ _ h
      -- misplaced colon
      · exact absurd (congrArg Prod.snd h) (by simp)
      -- key-only sample entry
      · split at h
        · exact ihO _ _ _ _ _ h
        · split at h
          · obtain ⟨h1, h2, h3⟩ := seqOps_eq_ok h
            subst h3
            exact neutral_append (neutral_item_int _ _ _)
              (ihO _ _ _ _ _ (by rw [← h2]))
          · exact absurd (congrArg Prod.snd h) (by simp)
        · split at h
          · obtain ⟨h1, h2, h3⟩ := seqOps_eq_ok h
            subst h3
            exact neutral_append (neutral_single_setInt _ _ _)
              (ihO _ _ _ _ _ (by rw [← h2]))
          · exact absurd (congrArg Prod.snd h) (by simp)
      -- parenthesized key
      · exact ihO _ _ _ _ _ h
      -- generic munch
      · exact ihO _ _ _ _ _ h
    · intro enc object key vops v verr rest ops hv h
      simp only [parse_entry] at h
      split at h
      · split at h
        · exact ihO _ _ _ _ _ h
        · split at h
          · exact absurd (congrArg Prod.snd h) (by simp)
          · obtain ⟨h1, h2, h3⟩ := seqOps_eq_ok h
            rw [item_str_emit_snd] at h1
            subst h3
            have hv' := hv h1
            rw [h1, item_str_emit_ok]
            exact neutral_append (neutral_item_str _ _ _ hv')
              (ihO _ _ _ _ _ (by rw [← h2]))
      · exact absurd (congrArg Prod.snd h) (by simp)
      · cases h; exact neutral_nil
    · intro enc acc ts ops h
      simp only [parse_array] at h
      split at h
      · cases h; exact neutral_nil
      · exact ihA _ _ _ _ h
      · exact ihA _ _ _ _ h
      · exact absurd (congrArg Prod.snd h) (by simp)
      · exact absurd (congrArg Prod.snd h) (by simp)
      · exact ihA _ _ _ _ h
      · exact ihA _ _ _ _ h
      · exact ihA _ _ _ _ h
      · obtain ⟨h1, h2, h3⟩ := seqOps_eq_ok h
        subst h3
        exact neutral_append (ihV' _ _ h1) (ihA _ _ _ _ (by rw [← h2]))
      · obtain ⟨h1, h2, h3⟩ := seqOps_eq_ok h
        subst h3
        exact neutral_append (ihV' _ _ h1) (ihA _ _ _ _ (by rw [← h2]))
      · exact ihA _ _ _ _ h
      · exact ihA _ _ _ _ h
      · cases h; exact neutral_nil
      · cases h; exact neutral_nil
      · exact absurd (congrArg Prod.snd h) (by simp)
      · exact absurd (congrArg Prod.snd h) (by simp)
      · exact absurd (congrArg Prod.snd h) (by simp)
    · intro enc t ops v h
      simp only [parse_value] at h
      split at h
      · cases h; exact neutral_nil
      · cases h; exact neutral_nil
      · cases h; exact neutral_nil
      · cases h; exact neutral_nil
      · have h1 := congrArg (fun q => q.2.2) h
        have h2 := congrArg Prod.fst h
        simp at h1 h2
        subst h2
        exact ihA _ _ _ _ (by rw [← h1])
      · cases h; exact neutral_nil
      · exact ihR _ _ _ _ h
      · cases h; exact neutral_nil
      · cases h; exact neutral_nil
      · exact absurd (congrArg (fun q => q.2.2) h) (by simp)
      · exact absurd (congrArg (fun q => q.2.2) h) (by simp)
    · intro enc ts ops v h
      simp only [parse_root] at h
      split at h
      · have h1 := congrArg (fun q => q.2.2) h
        have h2 := congrArg Prod.fst h
        simp at h1 h2
        subst h2
        exact ihO _ _ _ _ _ (by rw [← h1])
      · have h1 := congrArg (fun q => q.2.2) h
        have h2 := congrArg Prod.fst h
        simp at h1 h2
        subst h2
        obtain ⟨h3, h4⟩ := wrapOps_snd_ok h1
        rw [h4]
        have h5 : [Op.startRootObject, Op.setArray "root" "values"]
              ++ (parse_object fuel Enc.json "values" [] ts).1
              ++ [Op.closeArray "root" "values", Op.endRootObject]
            = coap_root (coap_array_wrap "root" "values"
                (parse_object fuel Enc.json "values" [] ts).1) := by
          simp [coap_root, coap_array_wrap]
        rw [h5]
        exact neutral_root_wrap (neutral_array_wrap _ _
          (ihO _ _ _ _ _ (by rw [← h3])))
      · have h1 := congrArg (fun q => q.2.2) h
        have h2 := congrArg Prod.fst h
        simp at h1 h2
        subst h2
        obtain ⟨h3, h4⟩ := wrapOps_snd_ok h1
        rw [h4]
        have h5 : [Op.startRootObject]
              ++ (parse_object fuel Enc.cbor "root" [] ts).1
              ++ [Op.endRootObject]
            = coap_root (parse_object fuel Enc.cbor "root" [] ts).1 := by
          simp [coap_root]
        rw [h5]
        exact neutral_root_wrap (ihO _ _ _ _ _ (by rw [← h3]))



theorem stepOp_count (k : FKind) (o : Op) (s s' : List Frame)
    (h : stepOp o s = some s') :
    s'.countP (frameIs k) + (if closesK k o then 1 else 0)
      = s.countP (frameIs k) + (if opensK k o then 1 else 0) := by
  cases o with
  | startRootObject =>
    simp only [stepOp, Option.some.injEq] at h
    subst h
    cases k <;> simp [frameIs, opensK, closesK, List.countP_cons]
  | setArray o0 k0 =>
    simp only [stepOp, Option.some.injEq] at h
    subst h
    cases k <;> simp [frameIs, opensK, closesK, List.countP_cons]
  | startItem k0 =>
    simp only [stepOp, Option.some.injEq] at h
    subst h
    cases k <;> simp [frameIs, opensK, closesK, List.countP_cons]
  | setText o0 k0 v0 =>
    simp only [stepOp, Option.some.injEq] at h
    subst h
    cases k <;> simp [frameIs, opensK, closesK]
  | setInt o0 k0 n0 =>
    simp only [stepOp, Option.some.injEq] at h
    subst h
    cases k <;> simp [frameIs, opensK, closesK]
  | endRootObject =>
    cases s with
    | nil => simp [stepOp] at h
    | cons f t =>
      cases f with
      | rootF =>
        simp only [stepOp, Option.some.injEq] at h
        subst h
        cases k <;> simp [frameIs, opensK, closesK, List.countP_cons]
      | arrayF a b => simp [stepOp] at h
      | itemF a => simp [stepOp] at h
  | closeArray o0 k0 =>
    cases s with
    | nil => simp [stepOp] at h
    | cons f t =>
      cases f with
      | rootF => simp [stepOp] at h
      | arrayF a b =>
        simp only [stepOp] at h
        split at h
        · simp only [Option.some.injEq] at h
          subst h
          cases k <;> simp [frameIs, opensK, closesK, List.countP_cons]
        · exact Option.noConfusion h
      | itemF a => simp [stepOp] at h
  | endItem k0 =>
    cases s with
    | nil => simp [stepOp] at h
    | cons f t =>
      cases f with
      | rootF => simp [stepOp] at h
      | arrayF a b => simp [stepOp] at h
      | itemF a =>
        simp only [stepOp] at h
        split at h
        · simp only [Option.some.injEq] at h
          subst h
          cases k <;> simp [frameIs, opensK, closesK, List.countP_cons]
        · exact Option.noConfusion h

theorem runStack_count (k : FKind) : ∀ (ops : List Op) (s s' : List Frame),
    runStack ops s = some s' →
    s'.countP (frameIs k) + ops.countP (closesK k)
      = s.countP (frameIs k) + ops.countP (opensK k) := by
  intro ops
  induction ops with
  | nil =>
    intro s s' h
    simp only [runStack, Option.some.injEq] at h
    subst h
    simp
  | cons o ops ih =>
    intro s s' h
    simp only [runStack] at h
    cases hst : stepOp o s with
    | none => rw [hst] at h; simp at h
    | some s1 =>
      rw [hst] at h
      have h1 := stepOp_count k o s s1 hst
      have h2 := ih s1 s' h
      simp only [List.countP_cons]
      omega

theorem balanced_counts {ops : List Op} (h : runStack ops [] = some [])
    (k : FKind) : ops.countP (opensK k) = ops.countP (closesK k) := by
  have h1 := runStack_count k ops [] [] h
  simp only [List.countP_nil] at h1
  omega



theorem seqOps_all (p : Op → Bool) {a b : List Op × Option Err}
    (ha : a.1.all p) (hb : b.1.all p) : (seqOps a b).1.all p := by
  unfold seqOps
  split <;> simp_all [List.all_append]

theorem cbor_no_array_wrap : ∀ fuel : Nat,
    (∀ object key stream,
      ((parse_object fuel Enc.cbor object key stream).1.all noArrWrap) = true)
    ∧ (∀ object key vops v verr rest,
        vops.all noArrWrap = true →
        ((parse_entry fuel Enc.cbor object key vops v verr rest).1.all noArrWrap) = true)
    ∧ (∀ acc ts, ((parse_array fuel Enc.cbor acc ts).1.all noArrWrap) = true)
    ∧ (∀ t, ((parse_value fuel Enc.cbor t).1.all noArrWrap) = true)
    ∧ (∀ ts, ((parse_root fuel Enc.cbor ts).1.all noArrWrap) = true) := by
  intro fuel
  induction fuel with
  | zero =>
    refine ⟨?_, ?_, ?_, ?_, ?_⟩ <;> intros <;> rfl
  | succ fuel ih =>
    obtain ⟨ihO, ihE, ihA, ihV, ihR⟩ := ih
    refine ⟨?_, ?_, ?_, ?_, ?_⟩
    · intro object key stream
      simp only [parse_object]
      split <;> try rfl
      · split <;>
          first
            | rfl
            | apply ihO
            | (apply ihE ; rfl)
            | (apply ihE ; apply ihV)
      · split
        · apply seqOps_all
          · simp [noArrWrap]
          · apply ihO
        · rfl
      · apply ihO
      · apply ihO
    · intro object key vops v verr rest hv
      simp only [parse_entry]
      split
      · split
        · rfl
        · apply seqOps_all
          · cases verr <;>
              simp_all [item_str_emit, coap_item_str, coap_item, noArrWrap,
                List.all_append]
          · apply ihO
      · rfl
      · rfl
    · intro acc ts
      simp only [parse_array]
      split <;> try rfl
      all_goals try (apply ihA)
      all_goals
        (apply seqOps_all
         · simp only [dropE]
           apply ihV
         · apply ihA)
    · intro t
      simp only [parse_value]
      split <;> try rfl
      · simp only []
        apply ihA
      · apply ihR
    · intro ts
      have hb := ihO "root" [] ts
      simp only [parse_root]
      show (wrapOps [Op.startRootObject] [Op.endRootObject]
          (parse_object fuel Enc.cbor "root" [] ts)).1.all noArrWrap = true
      unfold wrapOps
      split <;> simp [List.all_append, noArrWrap, hb]



set_option maxHeartbeats 1000000 in
theorem cbor_flat_fields : ∀ fuel : Nat,
    (∀ key stream, flatToks stream = true →
      ((parse_object fuel Enc.cbor "root" key stream).1.all cborFieldOp) = true)
    ∧ (∀ key vops v verr rest, flatToks rest = true →
        vops.all cborFieldOp = true →
        ((parse_entry fuel Enc.cbor "root" key vops v verr rest).1.all cborFieldOp) = true)
    ∧ (∀ acc ts, flatToks ts = true →
        ((parse_array fuel Enc.cbor acc ts).1.all cborFieldOp) = true)
    ∧ (∀ t, flatTok t = true →
        ((parse_value fuel Enc.cbor t).1.all cborFieldOp) = true) := by
  intro fuel
  induction fuel with
  | zero => refine ⟨?_, ?_, ?_, ?_⟩ <;> intros <;> rfl
  | succ fuel ih =>
    obtain ⟨ihO, ihE, ihA, ihV⟩ := ih
    refine ⟨?_, ?_, ?_, ?_⟩
    · intro key stream
      simp only [parse_object]
      split <;> intro hf <;>
        simp only [flatToks, flatTok, Bool.and_eq_true] at hf <;> try rfl
      -- value dispatch: stream = colon :: rest
      · obtain ⟨-, hf⟩ := hf
        split <;> try rfl
        · exact ihE _ _ _ _ _ (by simp_all [flatToks, flatTok]) rfl
        · exact ihE _ _ _ _ _ (by simp_all [flatToks, flatTok]) rfl
        · exact ihE _ _ _ _ _ (by simp_all [flatToks, flatTok]) rfl
        · exact ihE _ _ _ _ _ (by simp_all [flatToks, flatTok])
            (ihV _ (by simp_all [flatToks, flatTok]))
        · exact ihE _ _ _ _ _ (by simp_all [flatToks, flatTok])
            (ihV _ (by simp_all [flatToks, flatTok]))
        · exact ihE _ _ _ _ _ (by simp_all [flatToks, flatTok]) rfl
        · exact ihE _ _ _ _ _ (by simp_all [flatToks, flatTok]) rfl
        · exact ihE _ _ _ _ _ (by simp_all [flatToks, flatTok]) rfl
        · exact ihE _ _ _ _ _ (by simp_all [flatToks, flatTok]) rfl
        · exact ihO _ _ (by simp_all [flatToks, flatTok])
      -- key-only sample entry
      · obtain ⟨-, hf⟩ := hf
        split
        · apply seqOps_all
          · simp [cborFieldOp]
          · exact ihO _ _ hf
        · rfl
      -- parenthesized key
      · obtain ⟨-, hf⟩ := hf
        exact ihO _ _ (by simp_all [flatToks, flatTok])
      -- generic munch
      · obtain ⟨-, hf⟩ := hf
        exact ihO _ _ hf
    · intro key vops v verr rest hf hv
      simp only [parse_entry]
      split
      · simp only [flatToks, flatTok, Bool.and_eq_true, true_and] at hf
        split
        · rfl
        · apply seqOps_all
          · cases verr <;>
              simp_all [item_str_emit, coap_item_str, coap_item, cborFieldOp,
                List.all_append]
          · exact ihO _ _ hf
      · rfl
      · rfl
    · intro acc ts
      simp only [parse_array]
      split <;> intro hf <;>
        simp only [flatToks, flatTok, Bool.and_eq_true] at hf <;> try rfl
      all_goals try (exact ihA _ _ (by simp_all [flatToks, flatTok]))
      all_goals
        (apply seqOps_all
         · simp only [dropE]
           exact ihV _ (by simp_all [flatToks, flatTok])
         · exact ihA _ _ (by simp_all [flatToks, flatTok]))
    · intro t
      simp only [parse_value]
      split <;> intro hf <;> try rfl
      · simp only []
        exact ihA _ _ (by simp_all [flatTok, flatToks])
      · simp [flatTok] at hf


/-! ## Claim theorems -/

theorem cborLower_append (a b : List Op) :
    cborLower (a ++ b) = cborLower a ++ cborLower b := by
  induction a with
  | nil => simp [cborLower]
  | cons o a ih => simp [cborLower, ih]

theorem coap_json_success {fuel : Nat} {ts : List Tok} {ops : List Op}
    (hne : ts ≠ []) (h : coap fuel Enc.json ts = (ops, Option.none)) :
    ∃ g, fuel = g + 2
      ∧ (parse_object g Enc.json "values" [] ts).2 = Option.none
      ∧ ops = [Op.startRootObject, Op.setArray "root" "values"]
          ++ (parse_object g Enc.json "values" [] ts).1
          ++ [Op.closeArray "root" "values", Op.endRootObject] := by
  cases ts with
  | nil => exact absurd rfl hne
  | cons t0 ts' =>
    cases fuel with
    | zero => simp [coap, parse_value] at h
    | succ f =>
      cases f with
      | zero => simp [coap, parse_value, parse_root] at h
      | succ g =>
        have e : coap (g + 2) Enc.json (t0 :: ts')
            = ((wrapOps [Op.startRootObject, Op.setArray "root" "values"]
                  [Op.closeArray "root" "values", Op.endRootObject]
                  (parse_object g Enc.json "values" [] (t0 :: ts'))).1,
               (wrapOps [Op.startRootObject, Op.setArray "root" "values"]
                  [Op.closeArray "root" "values", Op.endRootObject]
                  (parse_object g Enc.json "values" [] (t0 :: ts'))).2) := rfl
        rw [e] at h
        have h1 := congrArg Prod.fst h
        have h2 := congrArg Prod.snd h
        simp only at h1 h2
        refine ⟨g, rfl, (wrapOps_snd_ok h2).1, ?_⟩
        rw [← h1, (wrapOps_snd_ok h2).2]

theorem coap_cbor_success {fuel : Nat} {ts : List Tok} {ops : List Op}
    (hne : ts ≠ []) (h : coap fuel Enc.cbor ts = (ops, Option.none)) :
    ∃ g, fuel = g + 2
      ∧ (parse_object g Enc.cbor "root" [] ts).2 = Option.none
      ∧ ops = Op.startRootObject :: (parse_object g Enc.cbor "root" [] ts).1
          ++ [Op.endRootObject] := by
  cases ts with
  | nil => exact absurd rfl hne
  | cons t0 ts' =>
    cases fuel with
    | zero => simp [coap, parse_value] at h
    | succ f =>
      cases f with
      | zero => simp [coap, parse_value, parse_root] at h
      | succ g =>
        have e : coap (g + 2) Enc.cbor (t0 :: ts')
            = ((wrapOps [Op.startRootObject] [Op.endRootObject]
                  (parse_object g Enc.cbor "root" [] (t0 :: ts'))).1,
               (wrapOps [Op.startRootObject] [Op.endRootObject]
                  (parse_object g Enc.cbor "root" [] (t0 :: ts'))).2) := rfl
        rw [e] at h
        have h1 := congrArg Prod.fst h
        have h2 := congrArg Prod.snd h
        simp only at h1 h2
        refine ⟨g, rfl, (wrapOps_snd_ok h2).1, ?_⟩
        rw [← h1, (wrapOps_snd_ok h2).2]
        simp

theorem coap_none_ops (fuel : Nat) (ts : List Tok) :
    (coap fuel Enc.none ts).1 = [] := by
  have h := (none_silent fuel).2.2.2.1 (Tok.obj ts)
  simp only [coap]
  exact h



theorem oc_rep_field_safe {o : Op} (h : cborFieldOp o = true) :
    (oc_rep o).all (fun c => !(isRootMapCreate c || isRootMapClose c)) = true := by
  cases o with
  | startRootObject => simp [cborFieldOp] at h
  | endRootObject => simp [cborFieldOp] at h
  | setArray o0 k0 => simp [cborFieldOp] at h
  | closeArray o0 k0 => simp [cborFieldOp] at h
  | startItem o0 =>
    simp only [cborFieldOp, beq_iff_eq] at h
    subst h
    rfl
  | endItem o0 =>
    simp only [cborFieldOp, beq_iff_eq] at h
    subst h
    rfl
  | setText o0 k0 v0 =>
    simp only [cborFieldOp, beq_iff_eq] at h
    subst h
    rfl
  | setInt o0 k0 n0 =>
    simp only [cborFieldOp, beq_iff_eq] at h
    subst h
    rfl

theorem cborLower_all_safe : ∀ {body : List Op}, body.all cborFieldOp = true →
    (cborLower body).all (fun c => !(isRootMapCreate c || isRootMapClose c)) = true := by
  intro body h
  induction body with
  | nil => rfl
  | cons o body ih =>
    simp only [List.all_cons, Bool.and_eq_true] at h
    obtain ⟨h1, h2⟩ := h
    simp only [cborLower]
    rw [List.all_append, oc_rep_field_safe h1, ih h2]
    rfl

/-- Claim C1 (amended).  For every non-empty object literal whose translation
succeeds: the Json target wraps the user-supplied fields inside the implicit
root object and a single "values" array, opened before any field operation
and closed in reverse order after the last one; the Cbor target emits the
fields directly under the root with no "values" array wrapper (no array
open/close operation occurs in its body at all); the None target emits no
encoder operations whatsoever, so in particular no wrapper but also no field
operations (this last point is where the original claim fails). -/
theorem claim1_root_wrapping :
    ∀ fuel (ts : List Tok), ts ≠ [] →
      (∀ ops, coap fuel Enc.json ts = (ops, Option.none) →
        ∃ body, ops = [Op.startRootObject, Op.setArray "root" "values"]
            ++ body ++ [Op.closeArray "root" "values", Op.endRootObject])
      ∧ (∀ ops, coap fuel Enc.cbor ts = (ops, Option.none) →
        ∃ body, ops = Op.startRootObject :: body ++ [Op.endRootObject]
          ∧ body.all noArrWrap = true)
      ∧ (coap fuel Enc.none ts).1 = [] := by
  intro fuel ts hne
  refine ⟨?_, ?_, coap_none_ops fuel ts⟩
  · intro ops h
    obtain ⟨g, -, -, h3⟩ := coap_json_success hne h
    exact ⟨_, h3⟩
  · intro ops h
    obtain ⟨g, -, -, h3⟩ := coap_cbor_success hne h
    exact ⟨_, h3, (cbor_no_array_wrap g).1 "root" [] ts⟩

/-- Claim C1 witness: the amended statement instantiated at the literal
a: 1 with a trailing comma. -/
theorem claim1_root_wrapping_witness :
    (∃ body, (coap 9 Enc.json
        [Tok.exp (Exp.ident "a"), Tok.colon, Tok.exp (Exp.int 1), Tok.comma]).1
      = [Op.startRootObject, Op.setArray "root" "values"]
          ++ body ++ [Op.closeArray "root" "values", Op.endRootObject])
    ∧ (∃ body, (coap 9 Enc.cbor
        [Tok.exp (Exp.ident "a"), Tok.colon, Tok.exp (Exp.int 1), Tok.comma]).1
      = Op.startRootObject :: body ++ [Op.endRootObject]
        ∧ body.all noArrWrap = true)
    ∧ (coap 9 Enc.none
        [Tok.exp (Exp.ident "a"), Tok.colon, Tok.exp (Exp.int 1), Tok.comma]).1 = [] :=
  ⟨(claim1_root_wrapping 9 [Tok.exp (Exp.ident "a"), Tok.colon, Tok.exp (Exp.int 1), Tok.comma] (by simp)).1
     (coap 9 Enc.json [Tok.exp (Exp.ident "a"), Tok.colon, Tok.exp (Exp.int 1), Tok.comma]).1 rfl,
   (claim1_root_wrapping 9 [Tok.exp (Exp.ident "a"), Tok.colon, Tok.exp (Exp.int 1), Tok.comma] (by simp)).2.1
     (coap 9 Enc.cbor [Tok.exp (Exp.ident "a"), Tok.colon, Tok.exp (Exp.int 1), Tok.comma]).1 rfl,
   (claim1_root_wrapping 9 [Tok.exp (Exp.ident "a"), Tok.colon, Tok.exp (Exp.int 1), Tok.comma] (by simp)).2.2⟩

/-- Claim C1 counterexample.  The claim states that the None target, like
Cbor, emits the fields directly under the root; in fact the @none rules emit
nothing at all: for the literal a: 1, the Cbor translation writes field
operations while the None translation's recorded sequence is empty. -/
theorem claim1_counterexample :
    mentionsField (coap 9 Enc.cbor
        [Tok.exp (Exp.ident "a"), Tok.colon, Tok.exp (Exp.int 1), Tok.comma]).1 = true
    ∧ mentionsField (coap 9 Enc.none
        [Tok.exp (Exp.ident "a"), Tok.colon, Tok.exp (Exp.int 1), Tok.comma]).1 = false :=
  ⟨rfl, rfl⟩

/-- Claim C2.  A key-only entry bound to a sample with key "temp" and value
42 emits exactly one object-array item with a "key" field set to "temp" and
a "value" field: but the "value" field is set to the hardcoded placeholder
1234 of coap_item_int_val! (the source's TODO), not to the sample's 42. -/
theorem claim2_sample_item_placeholder :
    coap 9 Enc.json [Tok.exp (Exp.sample "temp" 42), Tok.comma]
      = ([Op.startRootObject, Op.setArray "root" "values",
          Op.startItem "values", Op.setText "values" "key" (Exp.str "temp"),
          Op.setInt "values" "value" 1234, Op.endItem "values",
          Op.closeArray "root" "values", Op.endRootObject], Option.none)
    ∧ (1234 : Int) ≠ 42 :=
  ⟨rfl, by decide⟩

/-- Claim C3.  An entry whose colon is followed by nothing fails with the
grammar error of the dangling-colon rule (parse!() with no arguments) and
emits zero operations for that entry, whatever the target and the key; at
the top level the literal a: with no value leaves only the Json wrapper
opens emitted before the failure. -/
theorem claim3_dangling_colon_rejected :
    (∀ fuel enc object (ks : List Tok), ks ≠ [] →
      parse_object (fuel + 1) enc object ks [Tok.colon]
        = ([], some Err.unexpectedEnd))
    ∧ coap 9 Enc.json [Tok.exp (Exp.ident "a"), Tok.colon]
        = ([Op.startRootObject, Op.setArray "root" "values"],
           some Err.unexpectedEnd) := by
  constructor
  · intro fuel enc object ks hne
    cases ks with
    | nil => exact absurd rfl hne
    | cons k ks' => rfl
  · rfl

/-- Claim C3 witness: the dangling-colon rule fired at a concrete state. -/
theorem claim3_dangling_colon_rejected_witness :
    parse_object 9 Enc.cbor "root" [Tok.exp (Exp.ident "a")] [Tok.colon]
      = ([], some Err.unexpectedEnd) :=
  claim3_dangling_colon_rejected.1 8 Enc.cbor "root" [Tok.exp (Exp.ident "a")] (by simp)

/-- Claim C4.  Every successful translation, for every target, produces an
operation sequence that the frame stack machine runs from the empty stack
back to the empty stack (strict LIFO nesting), and in which each kind of
Start operation occurs exactly as often as its End counterpart. -/
theorem claim4_start_end_balanced :
    ∀ fuel enc ts ops, coap fuel enc ts = (ops, Option.none) →
      runStack ops [] = some []
      ∧ ∀ k, ops.countP (opensK k) = ops.countP (closesK k) := by
  intro fuel enc ts ops h
  have e : coap fuel enc ts
      = ((parse_value fuel enc (Tok.obj ts)).1,
         (parse_value fuel enc (Tok.obj ts)).2.2) := rfl
  rw [e] at h
  have h1 := congrArg Prod.fst h
  have h2 := congrArg Prod.snd h
  simp only at h1 h2
  have hn : Neutral ops := by
    rw [← h1]
    exact (balance_master fuel).2.2.2.1 enc (Tok.obj ts) _ _ (by rw [← h2])
  exact ⟨hn [], fun k => balanced_counts (hn []) k⟩

/-- Claim C4 witness: balance at the Json translation of a: 1 with a
trailing comma. -/
theorem claim4_start_end_balanced_witness :
    runStack (coap 9 Enc.json
        [Tok.exp (Exp.ident "a"), Tok.colon, Tok.exp (Exp.int 1), Tok.comma]).1 []
      = some []
    ∧ ∀ k, ((coap 9 Enc.json
        [Tok.exp (Exp.ident "a"), Tok.colon, Tok.exp (Exp.int 1), Tok.comma]).1.countP
          (opensK k))
      = ((coap 9 Enc.json
        [Tok.exp (Exp.ident "a"), Tok.colon, Tok.exp (Exp.int 1), Tok.comma]).1.countP
          (closesK k)) :=
  claim4_start_end_balanced 9 Enc.json [Tok.exp (Exp.ident "a"), Tok.colon, Tok.exp (Exp.int 1), Tok.comma]
    (coap 9 Enc.json [Tok.exp (Exp.ident "a"), Tok.colon, Tok.exp (Exp.int 1), Tok.comma]).1 rfl

/-- Claim C5.  Translating the literal of the claim, a: 1, b: "x", with the
Json target: only one array item is emitted (for a), because the final entry
b: "x" without a trailing comma falls into the TODO last-entry rule which
emits nothing; and the value 1 of the emitted item is written through the
text-string setter (coap_item_str!), not through the integer setter.  The
claimed output with two items and an integer-typed value 1 is therefore not
produced. -/
theorem claim5_json_encoding_at_failing_input :
    coap 9 Enc.json
        [Tok.exp (Exp.ident "a"), Tok.colon, Tok.exp (Exp.int 1), Tok.comma,
         Tok.exp (Exp.ident "b"), Tok.colon, Tok.exp (Exp.str "x")]
      = ([Op.startRootObject, Op.setArray "root" "values",
          Op.startItem "values", Op.setText "values" "key" (Exp.ident "a"),
          Op.setText "values" "value" (Exp.int 1), Op.endItem "values",
          Op.closeArray "root" "values", Op.endRootObject], Option.none) := rfl

/-- Claim C6.  The literal a: 1 b: 2 with the missing comma is accepted, not
rejected: the expr value rules fail softly, the muncher swallows the colon
and the following tokens into the key, and the garbled final entry is
dropped by the TODO last-entry rule, so translation succeeds emitting only
the wrapper operations and no error referencing b ever arises.  (The
unexpected-token rule the claim cites does fire, with the error referencing
b, in the neighbouring case a: null b where the completed value came from
the null rule.) -/
theorem claim6_missing_comma_at_failing_input :
    coap 9 Enc.json
        [Tok.exp (Exp.ident "a"), Tok.colon, Tok.exp (Exp.int 1),
         Tok.exp (Exp.ident "b"), Tok.colon, Tok.exp (Exp.int 2)]
      = ([Op.startRootObject, Op.setArray "root" "values",
          Op.closeArray "root" "values", Op.endRootObject], Option.none)
    ∧ coap 9 Enc.json
        [Tok.exp (Exp.ident "a"), Tok.colon, Tok.nullTok, Tok.exp (Exp.ident "b")]
      = ([Op.startRootObject, Op.setArray "root" "values"],
         some (Err.unexpectedToken (Tok.exp (Exp.ident "b")))) :=
  ⟨rfl, rfl⟩

/-- Claim C7.  Translation is a pure function of the literal: two runs of
the None-target translation of the same literal record identical operation
sequences and identical outcomes. -/
theorem claim7_translation_deterministic :
    ∀ fuel ts ops1 err1 ops2 err2,
      coap fuel Enc.none ts = (ops1, err1) →
      coap fuel Enc.none ts = (ops2, err2) →
      ops1 = ops2 ∧ err1 = err2 := by
  intro fuel ts ops1 err1 ops2 err2 h1 h2
  rw [h1] at h2
  exact ⟨congrArg Prod.fst h2, congrArg Prod.snd h2⟩

/-- Claim C7 witness: two runs on the literal a: 1 with a trailing comma. -/
theorem claim7_translation_deterministic_witness :
    (coap 9 Enc.none
        [Tok.exp (Exp.ident "a"), Tok.colon, Tok.exp (Exp.int 1), Tok.comma]).1
      = (coap 9 Enc.none
        [Tok.exp (Exp.ident "a"), Tok.colon, Tok.exp (Exp.int 1), Tok.comma]).1
    ∧ (coap 9 Enc.none
        [Tok.exp (Exp.ident "a"), Tok.colon, Tok.exp (Exp.int 1), Tok.comma]).2
      = (coap 9 Enc.none
        [Tok.exp (Exp.ident "a"), Tok.colon, Tok.exp (Exp.int 1), Tok.comma]).2 :=
  claim7_translation_deterministic 9 [Tok.exp (Exp.ident "a"), Tok.colon, Tok.exp (Exp.int 1), Tok.comma]
    (coap 9 Enc.none [Tok.exp (Exp.ident "a"), Tok.colon, Tok.exp (Exp.int 1), Tok.comma]).1 (coap 9 Enc.none [Tok.exp (Exp.ident "a"), Tok.colon, Tok.exp (Exp.int 1), Tok.comma]).2
    (coap 9 Enc.none [Tok.exp (Exp.ident "a"), Tok.colon, Tok.exp (Exp.int 1), Tok.comma]).1 (coap 9 Enc.none [Tok.exp (Exp.ident "a"), Tok.colon, Tok.exp (Exp.int 1), Tok.comma]).2 rfl rfl

/-- Claim C8 (amended).  For every non-empty object literal that contains no
nested non-empty object value, a successful Cbor translation lowers to a
tinycbor call sequence that opens exactly one indefinite-length root map on
the global encoder before any other call, closes exactly that container as
its final call, and issues no other root-map create or close in between.
(The restriction to literals without nested non-empty objects is forced by
the counterexample: a nested object value re-runs the root rule and re-opens
the same global root map inside the document.) -/
theorem claim8_cbor_root_map :
    ∀ fuel ts ops, ts ≠ [] → flatToks ts = true →
      coap fuel Enc.cbor ts = (ops, Option.none) →
      ∃ mid, cborLower ops
          = CborCall.createMap "g_encoder" "root_map" true :: mid
            ++ [CborCall.closeContainer "g_encoder" "root_map"]
        ∧ mid.all (fun c => !(isRootMapCreate c || isRootMapClose c)) = true := by
  intro fuel ts ops hne hflat h
  obtain ⟨g, -, -, h3⟩ := coap_cbor_success hne h
  subst h3
  refine ⟨cborLower (parse_object g Enc.cbor "root" [] ts).1, ?_, ?_⟩
  · have e : Op.startRootObject :: (parse_object g Enc.cbor "root" [] ts).1
          ++ [Op.endRootObject]
        = [Op.startRootObject] ++ ((parse_object g Enc.cbor "root" [] ts).1
          ++ [Op.endRootObject]) := by simp
    rw [e, cborLower_append, cborLower_append]
    simp [cborLower, oc_rep]
  · exact cborLower_all_safe ((cbor_flat_fields g).1 [] ts hflat)

/-- Claim C8 witness: the amended statement at the flat literal a: 1 with a
trailing comma. -/
theorem claim8_cbor_root_map_witness :
    ∃ mid, cborLower (coap 9 Enc.cbor
        [Tok.exp (Exp.ident "a"), Tok.colon, Tok.exp (Exp.int 1), Tok.comma]).1
        = CborCall.createMap "g_encoder" "root_map" true :: mid
          ++ [CborCall.closeContainer "g_encoder" "root_map"]
      ∧ mid.all (fun c => !(isRootMapCreate c || isRootMapClose c)) = true :=
  claim8_cbor_root_map 9 [Tok.exp (Exp.ident "a"), Tok.colon, Tok.exp (Exp.int 1), Tok.comma]
    (coap 9 Enc.cbor [Tok.exp (Exp.ident "a"), Tok.colon, Tok.exp (Exp.int 1), Tok.comma]).1 (by simp) rfl rfl

/-- Claim C8 counterexample.  The claim promises exactly one root map for
every literal; the nested literal a: (b: 1,), translates successfully but
its lowered call sequence creates the g_encoder/root_map container twice,
because the nested object value re-enters the root rule. -/
theorem claim8_counterexample :
    coap 12 Enc.cbor
        [Tok.exp (Exp.ident "a"), Tok.colon,
         Tok.obj [Tok.exp (Exp.ident "b"), Tok.colon, Tok.exp (Exp.int 1),
           Tok.comma],
         Tok.comma]
      = ([Op.startRootObject, Op.startItem "root",
          Op.setText "root" "key" (Exp.ident "a"),
          Op.startRootObject, Op.startItem "root",
          Op.setText "root" "key" (Exp.ident "b"),
          Op.setText "root" "value" (Exp.int 1), Op.endItem "root",
          Op.endRootObject,
          Op.setText "root" "value" (Exp.str "root"), Op.endItem "root",
          Op.endRootObject], Option.none)
    ∧ ((cborLower
        [Op.startRootObject, Op.startItem "root",
         Op.setText "root" "key" (Exp.ident "a"),
         Op.startRootObject, Op.startItem "root",
         Op.setText "root" "key" (Exp.ident "b"),
         Op.setText "root" "value" (Exp.int 1), Op.endItem "root",
         Op.endRootObject,
         Op.setText "root" "value" (Exp.str "root"), Op.endItem "root",
         Op.endRootObject]).countP isRootMapCreate) = 2 :=
  ⟨rfl, rfl⟩

/-- Claim C9.  For every target, the empty object and the empty array in
value position translate to the fixed placeholder strings with zero encoder
operations, and an entry whose value is an empty object therefore emits no
container operations for it, only the text placeholder. -/
theorem claim9_empty_container_placeholder :
    (∀ fuel : Nat, ∀ enc,
      parse_value (fuel + 1) enc (Tok.obj [])
        = ([], Exp.str "\x7b TODO \x7d", Option.none)
      ∧ parse_value (fuel + 1) enc (Tok.arr [])
        = ([], Exp.str "[ TODO ]", Option.none))
    ∧ coap 9 Enc.json
        [Tok.exp (Exp.ident "a"), Tok.colon, Tok.obj [], Tok.comma]
      = ([Op.startRootObject, Op.setArray "root" "values",
          Op.startItem "values", Op.setText "values" "key" (Exp.ident "a"),
          Op.setText "values" "value" (Exp.str "\x7b TODO \x7d"),
          Op.endItem "values",
          Op.closeArray "root" "values", Op.endRootObject], Option.none) :=
  ⟨fun _ _ => ⟨rfl, rfl⟩, rfl⟩

/-- Claim C10.  For every target, null, true and false in value position
translate to the strings "null", "true" and "false" with no operations, and
an entry with value null therefore writes the text string "null" through
the entry-emission path. -/
theorem claim10_null_bool_as_strings :
    (∀ fuel : Nat, ∀ enc,
      parse_value (fuel + 1) enc Tok.nullTok = ([], Exp.str "null", Option.none)
      ∧ parse_value (fuel + 1) enc Tok.trueTok = ([], Exp.str "true", Option.none)
      ∧ parse_value (fuel + 1) enc Tok.falseTok
        = ([], Exp.str "false", Option.none))
    ∧ coap 9 Enc.json
        [Tok.exp (Exp.ident "a"), Tok.colon, Tok.nullTok, Tok.comma]
      = ([Op.startRootObject, Op.setArray "root" "values",
          Op.startItem "values", Op.setText "values" "key" (Exp.ident "a"),
          Op.setText "values" "value" (Exp.str "null"), Op.endItem "values",
          Op.closeArray "root" "values", Op.endRootObject], Option.none) :=
  ⟨fun _ _ => ⟨rfl, rfl, rfl⟩, rfl⟩

end CoapMacros
